import Mathlib

/-!
Shallow embedding of the feed-retrieval core of the sieve repository
(src/sieve/arxiv.py together with the record schema of src/sieve/models.py).

Modelling conventions:
  * Python strings are lists of characters (`Str`).
  * Python `datetime` values are six-field records compared lexicographically
    (`DateTime`, `dtLt`), exactly the fields `datetime(*tuple[:6])` receives.
  * The network is abstracted: `get_feed` takes the outcome of each HTTP
    attempt as a function `Nat → Option α`, and the query loop takes the
    entries the server returns for each page index as `feed : Nat → List Entry`.
  * `sleep` is modelled by accumulating the requested durations (rationals).
  * The `while True:` page loop of `query` is run on explicit fuel counting
    fetched pages; `outcome = .outOfFuel` means the loop is still running
    after that many pages.
  * Raised exceptions are explicit outcomes: `raisedNoStop` is the
    `ValueError` for absent stop conditions, `raisedTypeError` is the
    `TypeError` raised by `min(max_results, 1000)` when `max_results` is
    `None`.
-/

namespace Sieve

abbrev Str := List Char

/-- Python `s.replace(src, dst)` for a one-character needle `src`: every
occurrence of the character is replaced by `dst`, all other characters are
kept.  (For a one-character needle Python's left-to-right non-overlapping
replacement is exactly this character-wise map.) -/
def pyReplace1 (src : Char) (dst : Str) (s : Str) : Str :=
  s.flatMap fun c => if c = src then dst else [c]

/-- The replacement table of `html_escaping` in src/sieve/arxiv.py, in source
order. -/
def replacements : List (Char × Str) :=
  [('\"', "%22".toList), (' ', "+".toList), ('(', "%28".toList), (')', "%29".toList)]

/-- `html_escaping` from src/sieve/arxiv.py: the four substitutions applied as
sequential literal replacements, in table order. -/
def html_escaping (s : Str) : Str :=
  replacements.foldl (fun acc p => pyReplace1 p.1 p.2 acc) s

/-- Per-character substitution table, written from the spec's wording of the
escaping contract ("only these four characters are escaped"); the refinement
theorem compares `html_escaping` against it. -/
def escTable (c : Char) : Str :=
  if c = '\"' then "%22".toList
  else if c = ' ' then "+".toList
  else if c = '(' then "%28".toList
  else if c = ')' then "%29".toList
  else [c]

/-- Python's `str.split()` whitespace characters (the ASCII ones; feed titles
contain no exotic Unicode whitespace). -/
def isPySpace (c : Char) : Bool :=
  c == ' ' || c == '\t' || c == '\n' || c == '\r' || c == '\x0b' || c == '\x0c'

/-- Worker for `pySplit`; `cur` holds the current chunk reversed. -/
def pySplitGo : List Char → List Char → List Str
  | [], [] => []
  | [], cur => [cur.reverse]
  | c :: rest, cur =>
    if isPySpace c then
      if cur.isEmpty then pySplitGo rest []
      else cur.reverse :: pySplitGo rest []
    else pySplitGo rest (c :: cur)

/-- Python `s.split()` with no argument: split on runs of whitespace,
discarding empty chunks (hence also leading/trailing whitespace). -/
def pySplit (s : Str) : List Str :=
  pySplitGo s []

/-- Python `" ".join(parts)`. -/
def joinSpace (parts : List Str) : Str :=
  List.intercalate [' '] parts

/-- Python `datetime` restricted to the six fields `datetime(*t[:6])`
receives: year, month, day, hour, minute, second. -/
structure DateTime where
  year : Nat
  month : Nat
  day : Nat
  hour : Nat
  minute : Nat
  second : Nat
  deriving DecidableEq, Repr

/-- Python `datetime` comparison `a < b`: lexicographic on the six fields. -/
@[reducible] def dtLt (a b : DateTime) : Prop :=
  a.year < b.year ∨ (a.year = b.year ∧ (a.month < b.month ∨ (a.month = b.month ∧
    (a.day < b.day ∨ (a.day = b.day ∧ (a.hour < b.hour ∨ (a.hour = b.hour ∧
      (a.minute < b.minute ∨ (a.minute = b.minute ∧ a.second < b.second)))))))))

/-- `datetime(*t[:6])`: build a `DateTime` from the first six fields of a
parsed time tuple.  Feed tuples always carry nine fields, so the default `0`
for a missing field never fires on real input. -/
def datetimeOfParsed (t : List Nat) : DateTime :=
  let s := t.take 6
  ⟨s.getD 0 0, s.getD 1 0, s.getD 2 0, s.getD 3 0, s.getD 4 0, s.getD 5 0⟩

/-- An author sub-structure of a feed entry (only its name is read). -/
structure Author where
  name : Str
  deriving DecidableEq, Repr

/-- A raw feed entry, with exactly the fields `paper_from_arxiv_entry`
reads. -/
structure Entry where
  id : Str
  title : Str
  authors : List Author
  summary : Str
  published_parsed : List Nat
  updated_parsed : List Nat
  deriving DecidableEq, Repr

/-- The `Paper` record of src/sieve/models.py. -/
structure Paper where
  id : Str
  title : Str
  authors : List Str
  abstract : Str
  date_published : DateTime
  date_updated : DateTime
  embedding : Option (List Rat)
  deriving DecidableEq, Repr

/-- `paper_from_arxiv_entry` from src/sieve/arxiv.py.  (The source computes
`paper_from_arxiv_entry(entry)` twice, once bound to `paper` and once yielded;
the function is pure, so both are this one value.) -/
def paper_from_arxiv_entry (e : Entry) : Paper :=
  { id := e.id
    title := joinSpace (pySplit (pyReplace1 '\n' [' '] e.title))
    authors := e.authors.map Author.name
    abstract := pyReplace1 '\n' [' '] e.summary
    date_published := datetimeOfParsed e.published_parsed
    date_updated := datetimeOfParsed e.updated_parsed
    embedding := none }

/-- The publication date `query` compares against `until`. -/
def entryDate (e : Entry) : DateTime :=
  datetimeOfParsed e.published_parsed

/-- Decimal rendering of a natural number, for URL construction. -/
def natStr (n : Nat) : Str :=
  (toString n).toList

/-- `search_url` from src/sieve/arxiv.py: parameters in the source's
insertion order. -/
def search_url (queryString : Str) (page maxResults : Nat) : Str :=
  "http://export.arxiv.org/api/query?search_query=".toList ++
    html_escaping queryString ++
    "&sortBy=submittedDate&sortOrder=descending&start=".toList ++
    natStr (page * maxResults) ++
    "&max_results=".toList ++ natStr maxResults

/-- Result of one `get_feed` call: the parsed feed on success (`none` models
the final `raise ValueError`, the spec's FeedUnavailable), the total sleep
time requested, and how many attempts were made. -/
structure FetchTrace (α : Type) where
  result : Option α
  slept : Rat
  attemptsMade : Nat
  deriving Repr

/-- The retry loop of `get_feed`, from attempt index `i` with `r` attempts
remaining.  A failing attempt sleeps `3 * scaling ^ i` before the next try
(the sleep happens even on the last failing attempt, as in the source). -/
def getFeedGo {α : Type} (attempt : Nat → Option α) (scaling : Rat) (i : Nat) :
    Nat → FetchTrace α
  | 0 => ⟨none, 0, 0⟩
  | r + 1 =>
    match attempt i with
    | some f => ⟨some f, 0, 1⟩
    | none =>
      let t := getFeedGo attempt scaling (i + 1) r
      ⟨t.result, 3 * scaling ^ i + t.slept, t.attemptsMade + 1⟩

/-- `get_feed` from src/sieve/arxiv.py: `attempt i` is the outcome of the
i-th `parse(urlopen(url).read().decode("utf-8"))` (any exception is `none`,
the catch-all `except:` does not distinguish failure kinds). -/
def get_feed {α : Type} (attempt : Nat → Option α) (scaling : Rat)
    (maxTries : Nat) : FetchTrace α :=
  getFeedGo attempt scaling 0 maxTries

/-- Stop condition (a) of `query`: `max_results is not None and count >= max_results`. -/
def countStop (m? : Option Nat) (count : Nat) : Bool :=
  match m? with
  | some m => m ≤ count
  | none => false

/-- Stop condition (b) of `query`: `until and paper.date_published < until`
(a `datetime` is always truthy, so this is exactly "until is set and the
date is strictly earlier"). -/
def dateStop (u? : Option DateTime) (d : DateTime) : Bool :=
  match u? with
  | some u => decide (dtLt d u)
  | none => false

/-- The inner `for entry in data["entries"]` loop of `query`: returns the
papers yielded from this page, the updated count, and whether a `return` was
executed.  Checks run after each yield: count stop first, then date stop. -/
def processEntries (u? : Option DateTime) (m? : Option Nat) :
    List Entry → Nat → List Paper × Nat × Bool
  | [], count => ([], count, false)
  | e :: rest, count =>
    let paper := paper_from_arxiv_entry e
    if countStop m? (count + 1) then ([paper], count + 1, true)
    else if dateStop u? paper.date_published then ([paper], count + 1, true)
    else
      let t := processEntries u? m? rest (count + 1)
      (paper :: t.1, t.2.1, t.2.2)

/-- `min(max_results, 1000)` from the body of `query`: Python's `min` raises
`TypeError` when comparing `None` with an `int`, so the cap computation fails
(`none`) exactly when `max_results` is absent. -/
def pageCap (m? : Option Nat) : Option Nat :=
  match m? with
  | none => none
  | some m => some (min m 1000)

/-- Outcome of running `query`'s loop on a given amount of page fuel. -/
inductive QueryOutcome where
  | done
  | raisedNoStop
  | raisedTypeError
  | outOfFuel
  deriving DecidableEq, Repr

/-- Observable behaviour of one `query` run: the papers yielded in order,
the number of pages fetched, and how the run ended. -/
structure QueryTrace where
  output : List Paper
  pagesFetched : Nat
  outcome : QueryOutcome
  deriving DecidableEq, Repr

/-- The `while True:` page loop of `query`.  Each iteration first evaluates
`min(max_results, 1000)` (raising `TypeError` when `max_results` is `None`,
before any fetch), then fetches the page's entries and runs the inner loop;
without a `return` it continues with `page + 1`.  `fuel` bounds the number of
page iterations; exhausting it yields `.outOfFuel` (the loop is still
running). -/
def queryLoop (feed : Nat → List Entry) (u? : Option DateTime) (m? : Option Nat)
    (page count : Nat) : Nat → QueryTrace
  | 0 => ⟨[], 0, .outOfFuel⟩
  | fuel + 1 =>
    match pageCap m? with
    | none => ⟨[], 0, .raisedTypeError⟩
    | some _ =>
      let entries := feed page
      let t := processEntries u? m? entries count
      if t.2.2 then ⟨t.1, 1, .done⟩
      else
        let rest := queryLoop feed u? m? (page + 1) t.2.1 fuel
        ⟨t.1 ++ rest.output, rest.pagesFetched + 1, rest.outcome⟩

/-- `query` from src/sieve/arxiv.py, run to completion on the given fuel.
`feed` abstracts the server: the entries the parsed feed holds for each page
index.  Both stop conditions absent raises `ValueError` (the spec's
NoStopCondition) before any fetch. -/
def queryRun (feed : Nat → List Entry) (u? : Option DateTime) (m? : Option Nat)
    (fuel : Nat) : QueryTrace :=
  match u?, m? with
  | none, none => ⟨[], 0, .raisedNoStop⟩
  | _, _ => queryLoop feed u? m? 0 0 fuel

/-! ## Concrete inputs used by witnesses and counterexamples -/

/-- A concrete well-formed feed entry (nine-field time tuples, as the feed
delivers them). -/
def entryA : Entry :=
  { id := "http://arxiv.org/abs/2401.00001v1".toList
    title := "A\n  B   C".toList
    authors := [⟨"Alice Doe".toList⟩, ⟨"Bob Roe".toList⟩]
    summary := "line1\nline2".toList
    published_parsed := [2024, 1, 2, 3, 4, 5, 1, 2, 0]
    updated_parsed := [2024, 1, 3, 3, 4, 5, 2, 3, 0] }

/-- A minimal entry whose publication year is `y`, for dated test feeds. -/
def entryYear (y : Nat) : Entry :=
  { id := "id".toList
    title := "T".toList
    authors := [⟨"N".toList⟩]
    summary := "S".toList
    published_parsed := [y, 1, 1, 0, 0, 0, 0, 0, 0]
    updated_parsed := [y, 1, 1, 0, 0, 0, 0, 0, 0] }

/-- Midnight, January 1 of year `y`. -/
def dtYear (y : Nat) : DateTime :=
  ⟨y, 1, 1, 0, 0, 0⟩

/-! ## Escaping (claims C8, C9) -/

/-- One-character replacement distributes over append. -/
theorem pyReplace1_append (src : Char) (dst : Str) (s t : Str) :
    pyReplace1 src dst (s ++ t) = pyReplace1 src dst s ++ pyReplace1 src dst t := by
  simp [pyReplace1]

/-- Pushing a single character through the four sequential replacements of
`html_escaping` gives exactly the per-character table. -/
theorem escTable_step (c : Char) :
    pyReplace1 ')' "%29".toList (pyReplace1 '(' "%28".toList
      (pyReplace1 ' ' "+".toList (pyReplace1 '\"' "%22".toList [c]))) =
    escTable c := by
  by_cases h1 : c = '\"'
  · subst h1; decide
  by_cases h2 : c = ' '
  · subst h2; decide
  by_cases h3 : c = '('
  · subst h3; decide
  by_cases h4 : c = ')'
  · subst h4; decide
  simp [pyReplace1, escTable, h1, h2, h3, h4]

/-- The sequential replacements of `html_escaping` coincide with one
character-wise pass of the substitution table: later passes never touch text
introduced by earlier ones. -/
theorem html_escaping_eq_escTable (s : Str) :
    html_escaping s = s.flatMap escTable := by
  have hrw : ∀ t : Str, html_escaping t =
      pyReplace1 ')' "%29".toList (pyReplace1 '(' "%28".toList
        (pyReplace1 ' ' "+".toList (pyReplace1 '\"' "%22".toList t))) :=
    fun t => rfl
  induction s with
  | nil => rfl
  | cons c cs ih =>
    rw [hrw]
    have hc : (c :: cs : Str) = [c] ++ cs := rfl
    rw [hc, pyReplace1_append, pyReplace1_append, pyReplace1_append,
      pyReplace1_append, escTable_step, ← hrw cs, ih]
    simp [List.flatMap_cons]

/-- C8: `html_escaping` applies the four substitutions (double-quote to %22,
space to +, opening parenthesis to %28, closing parenthesis to %29) as
sequential literal replacements in that order; the net effect is the
per-character substitution table, changing no other characters; on the spec's
example every reserved character is replaced and spaces become `+`. -/
theorem html_escaping_contract (s : Str) :
    html_escaping s = s.flatMap escTable ∧
    html_escaping "A (test) \"x\"".toList = "A+%28test%29+%22x%22".toList :=
  ⟨html_escaping_eq_escTable s, by decide⟩

/-- Escaping a character's escaped form changes nothing: no replacement output
contains any of the four source characters. -/
theorem escTable_idem (c : Char) :
    (escTable c).flatMap escTable = escTable c := by
  by_cases h1 : c = '\"'
  · subst h1; decide
  by_cases h2 : c = ' '
  · subst h2; decide
  by_cases h3 : c = '('
  · subst h3; decide
  by_cases h4 : c = ')'
  · subst h4; decide
  simp [escTable, h1, h2, h3, h4]

/-- Character-wise escaping is idempotent. -/
theorem flatMap_escTable_idem (s : Str) :
    (s.flatMap escTable).flatMap escTable = s.flatMap escTable := by
  induction s with
  | nil => rfl
  | cons c cs ih =>
    simp [List.flatMap_cons, List.flatMap_append, escTable_idem, ih]

/-- C9: `html_escaping` is idempotent — escaping an already escaped string is
the identity, because no replacement output contains any of the four source
characters. -/
theorem html_escaping_idempotent (s : Str) :
    html_escaping (html_escaping s) = html_escaping s := by
  simp only [html_escaping_eq_escTable]
  exact flatMap_escTable_idem s

/-! ## Stop-condition validation and the cap bug (claims C6, C1) -/

/-- C6: invoking `query` with both `until` and `max_results` absent fails
immediately with the no-stop-condition `ValueError` (the spec's
NoStopCondition): no record is produced and no page is fetched, whatever the
feed holds and however much fuel the loop is given. -/
theorem query_no_stop_condition (feed : Nat → List Entry) (fuel : Nat) :
    queryRun feed none none fuel = ⟨[], 0, .raisedNoStop⟩ :=
  rfl

/-- C1 (refuting the claim on the code): with `until` set and `max_results`
absent, the per-page cap computation `min(max_results, 1000)` raises
`TypeError` on the first loop iteration — before any page is fetched the run
aborts with no output, instead of requesting 1000 entries per page. -/
theorem query_until_only_type_error (feed : Nat → List Entry) (u : DateTime)
    (fuel : Nat) :
    pageCap none = none ∧
    queryRun feed (some u) none (fuel + 1) = ⟨[], 0, .raisedTypeError⟩ :=
  ⟨rfl, rfl⟩

/-! ## Page exhaustion never terminates the loop (claim C2) -/

/-- On a feed whose pages are all empty, the loop keeps fetching pages until
the fuel runs out, producing nothing and never executing a `return`. -/
theorem queryLoop_empty_feed (m page count fuel : Nat) :
    queryLoop (fun _ => []) none (some m) page count fuel =
      ⟨[], fuel, .outOfFuel⟩ := by
  induction fuel generalizing page count with
  | zero => rfl
  | succ n ih => simp [queryLoop, processEntries, pageCap, ih]

/-- C2 (refuting the claim on the code): a page with zero entries does not end
the iteration.  On an all-empty feed the loop never terminates — after any
number of fetched pages it is still running with no output — and on a feed
whose first page is empty the iterator goes on to fetch the second page and
produce its record, rather than stopping at the empty page. -/
theorem query_empty_page_keeps_looping (fuel : Nat) :
    queryRun (fun _ => []) none (some 5) fuel = ⟨[], fuel, .outOfFuel⟩ ∧
    queryRun (fun p => if p = 0 then [] else [entryA]) none (some 5) 2 =
      ⟨[paper_from_arxiv_entry entryA], 2, .outOfFuel⟩ := by
  exact ⟨queryLoop_empty_feed 5 0 0 fuel, by decide⟩

/-! ## Retry with exponential backoff (claim C4) -/

/-- Success on relative attempt `k` after `k` failures, started at attempt
index `s`: the traced run returns the parse, sleeps the backoff sum of the
failed attempts, and makes `k + 1` attempts. -/
theorem getFeedGo_success {α : Type} (attempt : Nat → Option α) (scaling : Rat) :
    ∀ (k s r : Nat) (f : α), k < r → (∀ i, i < k → attempt (s + i) = none) →
      attempt (s + k) = some f →
      getFeedGo attempt scaling s r =
        ⟨some f, (Finset.range k).sum fun i => 3 * scaling ^ (s + i), k + 1⟩ := by
  intro k
  induction k with
  | zero =>
    intro s r f hr hfail hsucc
    cases r with
    | zero => omega
    | succ r' =>
      have hs : attempt s = some f := by simpa using hsucc
      simp [getFeedGo, hs]
  | succ k ihk =>
    intro s r f hr hfail hsucc
    cases r with
    | zero => omega
    | succ r' =>
      have hs : attempt s = none := by simpa using hfail 0 (Nat.succ_pos k)
      have ih := ihk (s + 1) r' f (by omega)
        (fun i hi => by
          have hx := hfail (i + 1) (by omega)
          have : s + (i + 1) = s + 1 + i := by omega
          rwa [this] at hx)
        (by
          have : s + (k + 1) = s + 1 + k := by omega
          rwa [this] at hsucc)
      simp only [getFeedGo, hs, ih]
      have hsum : ∀ i : Nat, 3 * scaling ^ (s + 1 + i) = 3 * scaling ^ (s + (i + 1)) := by
        intro i
        have : s + 1 + i = s + (i + 1) := by omega
        rw [this]
      simp only [FetchTrace.mk.injEq, hsum, Finset.sum_range_succ']
      refine ⟨trivial, by ring, trivial⟩

/-- All `r` attempts from index `s` fail: the traced run returns no parse,
sleeps after every failed attempt (the last included), and makes exactly `r`
attempts. -/
theorem getFeedGo_all_fail {α : Type} (attempt : Nat → Option α) (scaling : Rat) :
    ∀ (r s : Nat), (∀ i, i < r → attempt (s + i) = none) →
      getFeedGo attempt scaling s r =
        ⟨none, (Finset.range r).sum fun i => 3 * scaling ^ (s + i), r⟩ := by
  intro r
  induction r with
  | zero => intro s _; simp [getFeedGo]
  | succ r' ih =>
    intro s h
    have hs : attempt s = none := by simpa using h 0 (Nat.succ_pos r')
    have ihs := ih (s + 1) (fun i hi => by
      have hx := h (i + 1) (by omega)
      have : s + (i + 1) = s + 1 + i := by omega
      rwa [this] at hx)
    simp only [getFeedGo, hs, ihs]
    have hsum : ∀ i : Nat, 3 * scaling ^ (s + 1 + i) = 3 * scaling ^ (s + (i + 1)) := by
      intro i
      have : s + 1 + i = s + (i + 1) := by omega
      rw [this]
    simp only [FetchTrace.mk.injEq, hsum, Finset.sum_range_succ']
    refine ⟨trivial, by ring, trivial⟩

/-- C4: if the fetch fails on its first `k < max_tries` attempts and succeeds
on attempt `k + 1`, `get_feed` returns the successful parse after a total wait
of the sum of `3 * scaling ^ i` for `i` in `0..k-1`; if all `max_tries`
attempts fail it fails (the spec's FeedUnavailable) having made exactly
`max_tries` attempts and no more. -/
theorem get_feed_retry_backoff {α : Type} (attempt : Nat → Option α)
    (scaling : Rat) (maxTries : Nat) :
    (∀ (k : Nat) (f : α), k < maxTries → (∀ i, i < k → attempt i = none) →
      attempt k = some f →
      get_feed attempt scaling maxTries =
        ⟨some f, (Finset.range k).sum fun i => 3 * scaling ^ i, k + 1⟩) ∧
    ((∀ i, i < maxTries → attempt i = none) →
      get_feed attempt scaling maxTries =
        ⟨none, (Finset.range maxTries).sum fun i => 3 * scaling ^ i, maxTries⟩) := by
  constructor
  · intro k f hk hfail hsucc
    have h := getFeedGo_success attempt scaling k 0 maxTries f hk
      (fun i hi => by simpa using hfail i hi) (by simpa using hsucc)
    simpa [get_feed] using h
  · intro hfail
    have h := getFeedGo_all_fail attempt scaling maxTries 0
      (fun i hi => by simpa using hfail i hi)
    simpa [get_feed] using h

/-- Witness for C4: two failures then success with scaling 2 waits 3 + 6 = 9
time units over 3 attempts; all 4 of 4 attempts failing waits
3 + 6 + 12 + 24 = 45 over exactly 4 attempts. -/
theorem get_feed_retry_backoff_witness :
    get_feed (fun i => if i = 2 then some 7 else none) (2 : Rat) 10 =
      ⟨some 7, 9, 3⟩ ∧
    get_feed (fun _ => (none : Option Nat)) (2 : Rat) 4 = ⟨none, 45, 4⟩ := by
  constructor
  · have h := (get_feed_retry_backoff (fun i => if i = 2 then some 7 else none)
      (2 : Rat) 10).1 2 7 (by decide) (by decide) rfl
    rw [h]
    norm_num [Finset.sum_range_succ]
  · have h := (get_feed_retry_backoff (fun _ => (none : Option Nat))
      (2 : Rat) 4).2 (fun i _ => rfl)
    rw [h]
    norm_num [Finset.sum_range_succ]

/-! ## Entry normalization (claim C7) -/

/-- C7: the normalizer keeps author names in feed order, leaves the embedding
absent, builds both timestamps from the first six fields of the parsed
tuples, collapses and trims all title whitespace after replacing newlines
(title "A\n  B   C" becomes "A B C"), and replaces only literal newlines in
the abstract ("line1\nline2" becomes "line1 line2" while a run "a\t\t b" is
left intact). -/
theorem paper_normalization (e : Entry)
    (p1 p2 p3 p4 p5 p6 : Nat) (pr : List Nat)
    (u1 u2 u3 u4 u5 u6 : Nat) (ur : List Nat)
    (hp : e.published_parsed = p1 :: p2 :: p3 :: p4 :: p5 :: p6 :: pr)
    (hu : e.updated_parsed = u1 :: u2 :: u3 :: u4 :: u5 :: u6 :: ur) :
    (paper_from_arxiv_entry e).authors = e.authors.map Author.name ∧
    (paper_from_arxiv_entry e).embedding = none ∧
    (paper_from_arxiv_entry e).date_published = ⟨p1, p2, p3, p4, p5, p6⟩ ∧
    (paper_from_arxiv_entry e).date_updated = ⟨u1, u2, u3, u4, u5, u6⟩ ∧
    (paper_from_arxiv_entry entryA).title = "A B C".toList ∧
    (paper_from_arxiv_entry entryA).abstract = "line1 line2".toList ∧
    pyReplace1 '\n' [' '] "a\t\t b".toList = "a\t\t b".toList := by
  refine ⟨rfl, rfl, ?_, ?_, by decide, by decide, by decide⟩
  · simp [paper_from_arxiv_entry, datetimeOfParsed, hp]
  · simp [paper_from_arxiv_entry, datetimeOfParsed, hu]

/-- Witness for C7 at the concrete entry `entryA`. -/
theorem paper_normalization_witness :
    (paper_from_arxiv_entry entryA).date_published = ⟨2024, 1, 2, 3, 4, 5⟩ ∧
    (paper_from_arxiv_entry entryA).date_updated = ⟨2024, 1, 3, 3, 4, 5⟩ ∧
    (paper_from_arxiv_entry entryA).embedding = none := by
  have h := paper_normalization entryA 2024 1 2 3 4 5 [1, 2, 0]
    2024 1 3 3 4 5 [2, 3, 0] rfl rfl
  exact ⟨h.2.2.1, h.2.2.2.1, h.2.1⟩

/-! ## The first record precedes the stop checks (claim C10) -/

/-- With at least one stop condition present, `query` enters the page loop. -/
theorem queryRun_eq_queryLoop (feed : Nat → List Entry) (u? : Option DateTime)
    (m : Nat) (fuel : Nat) :
    queryRun feed u? (some m) fuel = queryLoop feed u? (some m) 0 0 fuel := by
  cases u? <;> rfl

/-- The inner loop on a non-empty page always yields the first entry's record
first, whatever the stop conditions decide afterwards. -/
theorem processEntries_cons_head (u? : Option DateTime) (m? : Option Nat)
    (e : Entry) (rest : List Entry) (count : Nat) :
    ∃ l, (processEntries u? m? (e :: rest) count).1 =
      paper_from_arxiv_entry e :: l := by
  simp only [processEntries]
  by_cases h1 : countStop m? (count + 1) = true
  · exact ⟨[], by simp [h1]⟩
  · by_cases h2 : dateStop u? (paper_from_arxiv_entry e).date_published = true
    · exact ⟨[], by simp [h1, h2]⟩
    · exact ⟨(processEntries u? m? rest (count + 1)).1, by simp [h1, h2]⟩

/-- C10: when the first fetched page is non-empty, the record built from its
first entry is produced before any stop condition is evaluated; in particular
`max_results = 0` does not prevent that first record — the run yields it and
only then stops at the count check. -/
theorem query_first_record_before_stop (feed : Nat → List Entry)
    (u? : Option DateTime) (m : Nat) (e : Entry) (rest : List Entry) (fuel : Nat)
    (h : feed 0 = e :: rest) :
    (∃ l, (queryRun feed u? (some m) (fuel + 1)).output =
      paper_from_arxiv_entry e :: l) ∧
    queryRun feed u? (some 0) (fuel + 1) =
      ⟨[paper_from_arxiv_entry e], 1, .done⟩ := by
  constructor
  · rcases processEntries_cons_head u? (some m) e rest 0 with ⟨l, hl⟩
    rw [queryRun_eq_queryLoop]
    simp only [queryLoop, pageCap]
    rw [h]
    by_cases hst : (processEntries u? (some m) (e :: rest) 0).2.2 = true
    · exact ⟨l, by simp [hst, hl]⟩
    · refine ⟨l ++ (queryLoop feed u? (some m) 1 (processEntries u? (some m)
        (e :: rest) 0).2.1 fuel).output, ?_⟩
      simp [hst, hl]
  · rw [queryRun_eq_queryLoop]
    simp only [queryLoop, pageCap]
    rw [h]
    simp [processEntries, countStop]

/-- Witness for C10: on a feed whose page 0 is `[entryA]`, `max_results = 0`
still yields the first record before stopping. -/
theorem query_first_record_before_stop_witness :
    queryRun (fun _ => [entryA]) none (some 0) 1 =
      ⟨[paper_from_arxiv_entry entryA], 1, .done⟩ :=
  (query_first_record_before_stop (fun _ => [entryA]) none 0 entryA [] 0 rfl).2

/-! ## Stop by count (claim C5) -/

/-- With no date stop, a page too short to reach the cap yields all its
entries and the loop body executes no `return`. -/
theorem processEntries_under_cap (N : Nat) :
    ∀ (entries : List Entry) (count : Nat), count + entries.length < N →
      processEntries none (some N) entries count =
        (entries.map paper_from_arxiv_entry, count + entries.length, false) := by
  intro entries
  induction entries with
  | nil => intro count h; simp [processEntries]
  | cons e rest ih =>
    intro count h
    have h1 : countStop (some N) (count + 1) = false := by
      simp only [countStop, decide_eq_false_iff_not, Nat.not_le]
      simp only [List.length_cons] at h
      omega
    have h2 : dateStop none (paper_from_arxiv_entry e).date_published = false := rfl
    simp only [processEntries, h1, h2, Bool.false_eq_true, if_false]
    rw [ih (count + 1) (by simp only [List.length_cons] at h; omega)]
    simp only [List.map_cons, List.length_cons, Prod.mk.injEq]
    refine ⟨trivial, by omega, trivial⟩

/-- With no date stop, a page long enough to reach the cap stops after
producing exactly the records needed to bring the count to `N`. -/
theorem processEntries_reach_cap (N : Nat) :
    ∀ (entries : List Entry) (count : Nat), count < N → N ≤ count + entries.length →
      (processEntries none (some N) entries count).1.length = N - count ∧
      (processEntries none (some N) entries count).2.2 = true := by
  intro entries
  induction entries with
  | nil =>
    intro count h1 h2
    simp only [List.length_nil] at h2
    omega
  | cons e rest ih =>
    intro count h1 h2
    by_cases hc : countStop (some N) (count + 1) = true
    · have hN1 : N = count + 1 := by
        simp only [countStop, decide_eq_true_eq] at hc
        omega
      simp [processEntries, hc]
      omega
    · have hlt : count + 1 < N := by
        simp only [countStop, decide_eq_true_eq] at hc
        omega
      have h2' : dateStop none (paper_from_arxiv_entry e).date_published = false := rfl
      simp only [processEntries, hc, h2', Bool.false_eq_true, if_false]
      have := ih (count + 1) hlt (by simp only [List.length_cons] at h2; omega)
      simp only [List.length_cons]
      exact ⟨by simp only [this.1]; omega, this.2⟩

/-- On a feed with no empty pages and no date stop, the loop reaches the
count cap within `N - count` further pages and returns with exactly the
missing number of records. -/
theorem queryLoop_count_stop (feed : Nat → List Entry) (N : Nat)
    (hfeed : ∀ p, feed p ≠ []) :
    ∀ (fuel count page : Nat), count < N → N ≤ count + fuel →
      (queryLoop feed none (some N) page count fuel).outcome = .done ∧
      (queryLoop feed none (some N) page count fuel).output.length = N - count := by
  intro fuel
  induction fuel with
  | zero => intro count page h1 h2; omega
  | succ f ih =>
    intro count page h1 h2
    by_cases hcap : N ≤ count + (feed page).length
    · have hpe := processEntries_reach_cap N (feed page) count h1 hcap
      simp only [queryLoop, pageCap]
      simp [hpe.2, hpe.1]
    · push_neg at hcap
      have hlen : 1 ≤ (feed page).length := by
        cases hfp : feed page with
        | nil => exact absurd hfp (hfeed page)
        | cons a l => simp [hfp]
      have hpe := processEntries_under_cap N (feed page) count hcap
      simp only [queryLoop, pageCap, hpe, Bool.false_eq_true, if_false]
      have ihr := ih (count + (feed page).length) (page + 1) hcap (by omega)
      refine ⟨by simpa using ihr.1, ?_⟩
      simp only [List.length_append, List.length_map, ihr.2]
      omega

/-- C5 (amended): with `until` absent and `max_results = N ≥ 1`, a feed in
which every page is non-empty yields exactly `N` records and the run
terminates cleanly; the count stop is checked first, so a record triggering
it ends the page loop regardless of the date condition. -/
theorem query_max_results_count (feed : Nat → List Entry) (N : Nat)
    (hfeed : ∀ p, feed p ≠ []) (hN : 1 ≤ N) :
    (queryRun feed none (some N) N).outcome = .done ∧
    (queryRun feed none (some N) N).output.length = N ∧
    (∀ (u? : Option DateTime) (e : Entry) (rest : List Entry) (count : Nat),
      countStop (some N) (count + 1) = true →
      processEntries u? (some N) (e :: rest) count =
        ([paper_from_arxiv_entry e], count + 1, true)) := by
  refine ⟨?_, ?_, ?_⟩
  · rw [queryRun_eq_queryLoop]
    exact (queryLoop_count_stop feed N hfeed N 0 0 hN (by omega)).1
  · rw [queryRun_eq_queryLoop]
    have h := (queryLoop_count_stop feed N hfeed N 0 0 hN (by omega)).2
    simpa using h
  · intro u? e rest count hc
    simp [processEntries, hc]

/-- C5 counterexample: with `max_results = 0` over a feed whose first page is
non-empty, the iterator terminates cleanly but produces one record, not
zero. -/
theorem query_max_results_zero_counterexample :
    (queryRun (fun _ => [entryA]) none (some 0) 1).outcome = .done ∧
    (queryRun (fun _ => [entryA]) none (some 0) 1).output.length ≠ 0 := by
  decide

/-- Witness for C5 (amended) at `N = 2` on a one-entry-per-page feed. -/
theorem query_max_results_count_witness :
    (queryRun (fun _ => [entryA]) none (some 2) 2).outcome = .done ∧
    (queryRun (fun _ => [entryA]) none (some 2) 2).output.length = 2 := by
  have h := query_max_results_count (fun _ => [entryA]) 2
    (fun p => by simp) (by decide)
  exact ⟨h.1, h.2.1⟩

/-! ## Stop by date (claim C3) -/

/-- Lexicographic datetime comparison is transitive. -/
theorem dtLt_trans {a b c : DateTime} (h1 : dtLt a b) (h2 : dtLt b c) :
    dtLt a c := by
  unfold dtLt at h1 h2 ⊢
  omega

/-- The produced record carries the entry's publication date. -/
theorem paper_date (e : Entry) :
    (paper_from_arxiv_entry e).date_published = entryDate e := rfl

/-- Strictly decreasing publication dates: each later entry is strictly
older than the one before it. -/
@[reducible] def descDates (a b : Entry) : Prop :=
  dtLt (entryDate b) (entryDate a)

instance : IsTrans Entry descDates :=
  ⟨fun _ _ _ h1 h2 => dtLt_trans h2 h1⟩

/-- The first element surviving `dropWhile` fails the predicate. -/
theorem dropWhile_head_false {α : Type} {p : α → Bool} :
    ∀ {l : List α} {b : α} {tl : List α}, l.dropWhile p = b :: tl → p b = false := by
  intro l
  induction l with
  | nil => intro b tl h; simp [List.dropWhile] at h
  | cons a l ih =>
    intro b tl h
    rw [List.dropWhile_cons] at h
    by_cases hp : p a = true
    · rw [if_pos hp] at h
      exact ih h
    · have hp' : p a = false := by simpa using hp
      rw [if_neg hp] at h
      cases h
      exact hp'

/-- The inner loop with `until` set: entries dated at or after the cutoff are
all produced, then the first strictly-older entry is produced and stops the
iteration — provided the count cap is not hit strictly earlier. -/
theorem processEntries_until (u : DateTime) (N : Nat) (b : Entry) (tl : List Entry)
    (hb : dtLt (entryDate b) u) :
    ∀ (front : List Entry) (count : Nat),
      (∀ e ∈ front, ¬ dtLt (entryDate e) u) →
      count + front.length + 1 ≤ N →
      processEntries (some u) (some N) (front ++ b :: tl) count =
        ((front ++ [b]).map paper_from_arxiv_entry, count + front.length + 1, true) := by
  intro front
  induction front with
  | nil =>
    intro count _ _
    simp only [List.nil_append, List.length_nil, processEntries]
    by_cases hc : countStop (some N) (count + 1) = true
    · simp [hc]
    · have hd : dateStop (some u) (paper_from_arxiv_entry b).date_published = true := by
        simp only [paper_date, dateStop, decide_eq_true_eq]
        exact hb
      simp [hc, hd]
  | cons e front ih =>
    intro count hfr hN
    have hc : countStop (some N) (count + 1) = false := by
      simp only [countStop, decide_eq_false_iff_not, Nat.not_le]
      simp only [List.length_cons] at hN
      omega
    have hd : dateStop (some u) (paper_from_arxiv_entry e).date_published = false := by
      simp only [paper_date, dateStop, decide_eq_false_iff_not]
      exact hfr e (by simp)
    simp only [List.cons_append, processEntries, hc, hd, Bool.false_eq_true, if_false,
      List.append_eq]
    rw [ih (count + 1) (fun x hx => hfr x (by simp [hx]))
      (by simp only [List.length_cons] at hN ⊢; omega)]
    simp only [List.length_cons, List.map_cons, List.cons_append, Prod.mk.injEq]
    refine ⟨trivial, by omega, trivial⟩

/-- The inner loop distributes over page concatenation: if the first chunk
executes a `return`, the rest is never examined; otherwise processing
continues on the rest with the carried count. -/
theorem processEntries_append (u? : Option DateTime) (m? : Option Nat) :
    ∀ (l1 l2 : List Entry) (count : Nat),
      processEntries u? m? (l1 ++ l2) count =
        if (processEntries u? m? l1 count).2.2 then processEntries u? m? l1 count
        else ((processEntries u? m? l1 count).1 ++
                (processEntries u? m? l2 (processEntries u? m? l1 count).2.1).1,
              (processEntries u? m? l2 (processEntries u? m? l1 count).2.1).2.1,
              (processEntries u? m? l2 (processEntries u? m? l1 count).2.1).2.2) := by
  intro l1
  induction l1 with
  | nil =>
    intro l2 count
    simp [processEntries]
  | cons e l1 ih =>
    intro l2 count
    simp only [List.cons_append, processEntries, List.append_eq]
    by_cases h1 : countStop m? (count + 1) = true
    · simp [h1]
    · by_cases h2 : dateStop u? (paper_from_arxiv_entry e).date_published = true
      · simp [h1, h2]
      · simp only [h1, h2, Bool.false_eq_true, if_false]
        rw [ih l2 (count + 1)]
        by_cases h3 : (processEntries u? m? l1 (count + 1)).2.2 = true
        · simp [h3]
        · simp [h3]

/-- Running the page loop over finitely many pages processes their
concatenation, provided the concatenation executes a `return` and the fuel
covers the page count. -/
theorem queryLoop_flat (u? : Option DateTime) (N : Nat) :
    ∀ (ps : List (List Entry)) (feed : Nat → List Entry) (page count fuel : Nat),
      (∀ i, feed (page + i) = ps.getD i []) →
      (processEntries u? (some N) ps.flatten count).2.2 = true →
      ps.length ≤ fuel →
      ∃ pg, queryLoop feed u? (some N) page count fuel =
        ⟨(processEntries u? (some N) ps.flatten count).1, pg, .done⟩ := by
  intro ps
  induction ps with
  | nil =>
    intro feed page count fuel _ hstop _
    simp [processEntries] at hstop
  | cons es rest ih =>
    intro feed page count fuel h hstop hf
    cases fuel with
    | zero => exact absurd hf (by simp)
    | succ f =>
      have hfp : feed page = es := by simpa using h 0
      have happ := processEntries_append u? (some N) es rest.flatten count
      rw [List.flatten_cons] at hstop ⊢
      by_cases h1 : (processEntries u? (some N) es count).2.2 = true
      · refine ⟨1, ?_⟩
        simp only [queryLoop, pageCap, hfp, h1, if_true]
        rw [happ]
        simp [h1]
      · have hstop2 : (processEntries u? (some N) rest.flatten
            (processEntries u? (some N) es count).2.1).2.2 = true := by
          rw [happ] at hstop
          simpa [h1] using hstop
        obtain ⟨pg, hq⟩ := ih feed (page + 1)
          (processEntries u? (some N) es count).2.1 f
          (fun i => by
            have hx := h (i + 1)
            have heq : page + (i + 1) = page + 1 + i := by omega
            rw [heq] at hx
            simpa using hx)
          hstop2 (by simp only [List.length_cons] at hf; omega)
        refine ⟨pg + 1, ?_⟩
        simp only [queryLoop, pageCap, hfp, h1, Bool.false_eq_true, if_false]
        rw [hq, happ]
        simp [h1]

/-- C3 (amended): with `until` set and `max_results = N` strictly greater
than the number of feed records dated at or after `until`, a feed with
strictly decreasing publication dates that contains a strictly-older record
makes the iterator produce every record dated at or after `until` plus
exactly one record strictly older than `until` (the boundary record is
included in the output), and then terminate; it never produces two records
older than `until`. -/
theorem query_until_boundary (pages : List (List Entry)) (u : DateTime)
    (N fuel : Nat)
    (hchain : List.Chain' descDates pages.flatten)
    (hex : ∃ e ∈ pages.flatten, dtLt (entryDate e) u)
    (hN : (pages.flatten.filter fun e => ! decide (dtLt (entryDate e) u)).length < N)
    (hfuel : pages.length ≤ fuel) :
    ∃ pg out,
      queryRun (fun p => pages.getD p []) (some u) (some N) fuel =
        ⟨out, pg, .done⟩ ∧
      out = (pages.flatten.take
          ((pages.flatten.takeWhile fun e => ! decide (dtLt (entryDate e) u)).length
            + 1)).map paper_from_arxiv_entry ∧
      (∀ e ∈ pages.flatten, ¬ dtLt (entryDate e) u →
        paper_from_arxiv_entry e ∈ out) ∧
      (out.filter fun p => decide (dtLt p.date_published u)).length = 1 := by
  set P : Entry → Bool := fun e => ! decide (dtLt (entryDate e) u) with hP
  set es := pages.flatten with hes
  have hsplit : es.takeWhile P ++ es.dropWhile P = es :=
    List.takeWhile_append_dropWhile P es
  obtain ⟨b, tl, hbtl⟩ : ∃ b tl, es.dropWhile P = b :: tl := by
    cases hdw : es.dropWhile P with
    | nil =>
      exfalso
      obtain ⟨e, he, hlt⟩ := hex
      have htw : es.takeWhile P = es := by
        rw [hdw, List.append_nil] at hsplit
        exact hsplit
      rw [← htw] at he
      have := List.mem_takeWhile_imp he
      rw [hP] at this
      simp only [Bool.not_eq_true', decide_eq_false_iff_not] at this
      exact this hlt
    | cons b tl => exact ⟨b, tl, rfl⟩
  have hPb : P b = false := dropWhile_head_false hbtl
  have hb : dtLt (entryDate b) u := by
    rw [hP] at hPb
    simp only [Bool.not_eq_false', decide_eq_true_eq] at hPb
    exact hPb
  set front := es.takeWhile P with hfront
  have hesdecomp : es = front ++ b :: tl := by rw [← hsplit, hbtl]
  have hfrontP : ∀ e ∈ front, ¬ dtLt (entryDate e) u := by
    intro e he
    have hx := List.mem_takeWhile_imp he
    rw [hP] at hx
    simp only [Bool.not_eq_true', decide_eq_false_iff_not] at hx
    exact hx
  have hpw : List.Pairwise descDates es := List.chain'_iff_pairwise.mp hchain
  have htl : ∀ e ∈ tl, dtLt (entryDate e) u := by
    intro e he
    rw [hesdecomp] at hpw
    have h2 := (List.pairwise_append.mp hpw).2.1
    have hbe : descDates b e := (List.pairwise_cons.mp h2).1 e he
    exact dtLt_trans hbe hb
  have hfilter : es.filter P = front := by
    conv_lhs => rw [hesdecomp]
    rw [List.filter_append]
    have h1 : front.filter P = front :=
      List.filter_eq_self.mpr (fun a ha => by
        have hna := hfrontP a ha
        rw [hP]
        simp only [Bool.not_eq_true', decide_eq_false_iff_not]
        exact hna)
    have h2 : (b :: tl).filter P = [] := by
      rw [List.filter_eq_nil_iff]
      intro a ha
      rcases List.mem_cons.mp ha with h | h
      · subst h; simp [hPb]
      · have hda := htl a h
        rw [hP]
        intro hcon
        simp only [Bool.not_eq_true', decide_eq_false_iff_not] at hcon
        exact hcon hda
    rw [h1, h2, List.append_nil]
  have hNfront : front.length + 1 ≤ N := by
    rw [hfilter] at hN
    omega
  have hpe := processEntries_until u N b tl hb front 0 hfrontP (by omega)
  have hpeEs : processEntries (some u) (some N) es 0 =
      ((front ++ [b]).map paper_from_arxiv_entry, 0 + front.length + 1, true) := by
    rw [hesdecomp]
    exact hpe
  have hstop : (processEntries (some u) (some N) es 0).2.2 = true := by
    rw [hpeEs]
  obtain ⟨pg, hq⟩ := queryLoop_flat (some u) N pages (fun p => pages.getD p [])
    0 0 fuel (fun i => by simp) hstop hfuel
  refine ⟨pg, (processEntries (some u) (some N) es 0).1, ?_, ?_, ?_, ?_⟩
  · rw [queryRun_eq_queryLoop]
    exact hq
  · rw [hpeEs]
    have htake : es.take (front.length + 1) = front ++ [b] := by
      conv_lhs => rw [hesdecomp]
      rw [List.take_append_eq_append_take]
      have h1 : front.take (front.length + 1) = front :=
        List.take_of_length_le (by omega)
      have h2 : front.length + 1 - front.length = 1 := by omega
      rw [h1, h2]
      simp
    rw [htake]
  · intro e he hlt
    rw [hpeEs]
    have hef : e ∈ front := by
      rw [hesdecomp] at he
      rcases List.mem_append.mp he with h | h
      · exact h
      · rcases List.mem_cons.mp h with h' | h'
        · subst h'; exact absurd hb hlt
        · exact absurd (htl e h') hlt
    exact List.mem_map_of_mem _ (List.mem_append_left [b] hef)
  · rw [hpeEs]
    simp only [List.map_append]
    rw [List.filter_append]
    have h1 : ((front.map paper_from_arxiv_entry).filter
        fun p => decide (dtLt p.date_published u)) = [] := by
      rw [List.filter_eq_nil_iff]
      intro a ha
      obtain ⟨e, he, rfl⟩ := List.mem_map.mp ha
      simp only [paper_date, decide_eq_true_eq]
      exact hfrontP e he
    have h2 : (([b].map paper_from_arxiv_entry).filter
        fun p => decide (dtLt p.date_published u)) = [paper_from_arxiv_entry b] := by
      simp [paper_date, hb]
    rw [h1, h2]
    simp

/-- C3 counterexample: the canonical query with `until` set and `max_results`
absent — over a feed with strictly decreasing dates that contains a record
older than `until` — crashes with `TypeError` before fetching anything and
produces no records at all, instead of the promised records at or after
`until` plus the boundary record. -/
theorem query_until_boundary_counterexample :
    queryRun (fun p => [[entryYear 2024], [entryYear 2023, entryYear 2020]].getD p [])
      (some (dtYear 2022)) none 2 = ⟨[], 0, .raisedTypeError⟩ := by
  decide

/-- Witness for C3 (amended) on a two-page feed with dates 2024, 2023, 2020,
cutoff 2022 and `max_results = 3`. -/
theorem query_until_boundary_witness :
    ∃ pg out,
      queryRun (fun p => [[entryYear 2024], [entryYear 2023, entryYear 2020]].getD p [])
        (some (dtYear 2022)) (some 3) 2 = ⟨out, pg, .done⟩ ∧
      out = (([[entryYear 2024], [entryYear 2023, entryYear 2020]].flatten.take
          (([[entryYear 2024], [entryYear 2023, entryYear 2020]].flatten.takeWhile
              fun e => ! decide (dtLt (entryDate e) (dtYear 2022))).length
            + 1)).map paper_from_arxiv_entry) ∧
      (∀ e ∈ [[entryYear 2024], [entryYear 2023, entryYear 2020]].flatten,
        ¬ dtLt (entryDate e) (dtYear 2022) → paper_from_arxiv_entry e ∈ out) ∧
      (out.filter fun p => decide (dtLt p.date_published (dtYear 2022))).length = 1 :=
  query_until_boundary [[entryYear 2024], [entryYear 2023, entryYear 2020]]
    (dtYear 2022) 3 2
    (List.Chain.cons (by decide) (List.Chain.cons (by decide) List.Chain.nil))
    (by decide) (by decide) (by decide)

end Sieve
